import Mathlib

/-!
Verification of the generic playlist container of `libabsinthium`
(src/lib.rs, src/plaintext.rs) against its specification.

The container `Playlist<P, M, E>` keeps an ordered sequence of entries
and one playlist-info value behind `RefCell`s; its operations only ever
read or replace whole list values, so the shallow embedding models a
container as a pure structure holding the entry list and the info value,
and each operation as a pure function on it (state-passing for the
interior mutability).  Rust `clone` on value types is the identity of
the embedded value.
-/

/-- Embeds `Playlist<P, M, E>` from src/lib.rs (the phantom metadata
parameter `M` carries no data and is dropped; `P` is the playlist-info
type, `E` the entry type). -/
structure Playlist (P E : Type) where
  entries : List E
  info : P
deriving DecidableEq

/-- Error taxonomy of the spec that the embedded operations can surface.
`Vec::remove`'s out-of-bounds abort and the spec's `IndexError` are both
embedded as `indexError`. -/
inductive AbsError where
  | indexError
deriving DecidableEq

variable {P E : Type}

/-- Embeds `uri_is_file` (src/lib.rs, lines 18-20): the body ignores its
argument and returns `false`. -/
def uri_is_file (_ : String) : Bool :=
  false

/-- Embeds `Playlist::from_parts` (src/lib.rs, lines 114-116). -/
def Playlist.from_parts (info : P) (entries : List E) : Playlist P E :=
  Playlist.mk entries info

/-- Embeds `Playlist::get_metadata` (src/lib.rs, lines 118-120): clone of
the borrowed info value. -/
def Playlist.get_metadata (p : Playlist P E) : P :=
  p.info

/-- Embeds `Playlist::add_entry` (src/lib.rs, lines 122-124):
`Vec::push` appends at the end. -/
def Playlist.add_entry (p : Playlist P E) (e : E) : Playlist P E :=
  Playlist.mk (p.entries ++ [e]) p.info

/-- Embeds `Playlist::remove_entry` (src/lib.rs, lines 126-128), i.e.
`Vec::remove(index)`: fails (aborts) when `index >= len`, otherwise
removes and returns the element at `index`, shifting later elements one
position left.  The returned pair is (removed element, container after). -/
def Playlist.remove_entry (p : Playlist P E) (i : Nat) :
    Except AbsError (E × Playlist P E) :=
  if h : i < p.entries.length then
    Except.ok (p.entries.get ⟨i, h⟩,
      Playlist.mk (p.entries.take i ++ p.entries.drop (i + 1)) p.info)
  else
    Except.error AbsError.indexError

/-- Embeds `Playlist::count` (src/lib.rs, lines 130-132): `Vec::len` of
the borrowed entries. -/
def Playlist.count (p : Playlist P E) : Nat :=
  p.entries.length

/-- Embeds `Playlist::merge` (src/lib.rs, lines 134-147): the new list is
`self`'s entries chained with `other`'s entries, element-wise cloned; the
new info is a clone of `self`'s info cell. -/
def Playlist.merge (p other : Playlist P E) : Playlist P E :=
  Playlist.mk (p.entries ++ other.entries) p.info

/-- Ownership store: the containers currently alive (owned by some
caller), keyed by an identifier.  Used to embed the ownership effect of
operations that move or drop containers. -/
abbrev Store (P E : Type) :=
  List (Nat × Playlist P E)

/-- Look a container up by its key in the store of live containers. -/
def storeLookup (σ : Store P E) (i : Nat) : Option (Playlist P E) :=
  match σ with
  | [] => none
  | (j, p) :: rest => if j = i then some p else storeLookup rest i

/-- Drop a container: remove its binding from the store of live
containers. -/
def storeErase (σ : Store P E) (i : Nat) : Store P E :=
  match σ with
  | [] => []
  | (j, p) :: rest =>
    if j = i then storeErase rest i else (j, p) :: storeErase rest i

/-- Embeds a whole `merge` call including its ownership effect
(src/lib.rs, lines 134-147): the receiver is taken by `&self` (a shared
borrow, only read), so its binding stays in the store unchanged; the
argument is taken by value (`other: Self`), moved into the call and
dropped when the body returns, so its binding leaves the store; the
freshly built result enters the store under the fresh key `r`.  `none`
when either operand is not a live container. -/
def mergeCall (σ : Store P E) (x y r : Nat) : Option (Store P E) :=
  match storeLookup σ x, storeLookup σ y with
  | some px, some py => some ((r, px.merge py) :: storeErase σ y)
  | _, _ => none

/-- Modelled from the spec: `add_entry_at` is declared on the
`PlaylistFormat` trait (src/lib.rs, lines 91-92) but `Playlist` carries
no implementation of it; the spec states it "inserts at `index`,
shifting subsequent entries; fails with `IndexError` if
`index > count()`". -/
def Playlist.add_entry_at (p : Playlist P E) (e : E) (i : Nat) :
    Except AbsError (Playlist P E) :=
  if p.entries.length < i then
    Except.error AbsError.indexError
  else
    Except.ok (Playlist.mk (p.entries.take i ++ e :: p.entries.drop i) p.info)

/-- Modelled from the spec: the scan underlying `dedup_entries`.  `kept`
accumulates the survivors so far; an incoming entry is dropped when it is
equal (under the capability-defined equality `eq`) to an already-kept
entry, otherwise it is kept, so the first occurrence of each equality
class survives and relative order is preserved. -/
def dedupKeep (eq : E → E → Bool) (kept : List E) : List E → List E
  | [] => []
  | x :: xs =>
    if kept.any (fun s => eq s x) then
      dedupKeep eq kept xs
    else
      x :: dedupKeep eq (kept ++ [x]) xs

/-- Modelled from the spec: `dedup_entries` is declared on the
`PlaylistFormat` trait (src/lib.rs, lines 73-78) but `Playlist` carries
no implementation of it; the spec states it "removes duplicate entries
under capability-defined equality, keeping the first occurrence of each
equality class and preserving relative order of survivors; returns the
number of entries removed".  Result: (container after, number removed). -/
def Playlist.dedup_entries (eq : E → E → Bool) (p : Playlist P E) :
    Playlist P E × Nat :=
  let kept := dedupKeep eq [] p.entries
  (Playlist.mk kept p.info, p.entries.length - kept.length)

/-- Specification-side characterization used to judge `dedup_entries`:
walking the list with `prev` holding ALL earlier entries of the original
list, an entry survives exactly when no earlier entry of the original
list is equal to it. -/
def firstOccAux (eq : E → E → Bool) (prev : List E) : List E → List E
  | [] => []
  | x :: xs =>
    if prev.any (fun s => eq s x) then
      firstOccAux eq (prev ++ [x]) xs
    else
      x :: firstOccAux eq (prev ++ [x]) xs

/-- Specification-side characterization: the entries of a list that are
not equal to any strictly earlier entry of the same list. -/
def firstOccurrences (eq : E → E → Bool) (l : List E) : List E :=
  firstOccAux eq [] l

/-- Embeds `PlainMetadata<'a>` from src/plaintext.rs (lines 51-54).  The
source stores a reference to the owning entry; the embedding keeps a
numeric identifier standing for that reference (none of the accessor
bodies read it). -/
structure PlainMetadata where
  parent : Nat
deriving DecidableEq

/-- Embeds `PlainMetadata::title` (src/plaintext.rs, lines 67-69): the
body returns `Cow::from("")`, the empty string, unconditionally. -/
def PlainMetadata.title (_ : PlainMetadata) : String :=
  ""

/-- Embeds `PlainMetadata::len` (src/plaintext.rs, lines 71-73). -/
def PlainMetadata.len (_ : PlainMetadata) : Option Nat :=
  none

/-- Embeds `PlainMetadata::info` (src/plaintext.rs, lines 75-77). -/
def PlainMetadata.info (_ : PlainMetadata) : String :=
  ""

/-- Specification-side helper for the fallback-title policy: the final
path segment of a reference, i.e. the characters after the last '/'. -/
def finalPathSegment (s : String) : String :=
  String.mk ((s.data.reverse.takeWhile (fun c => c ≠ '/')).reverse)

/-- Embeds `PlainEntry<'a>` from src/plaintext.rs (lines 22-26).  The
`RefCell<Option<PlainMetadata>>` cell's stored value is `metadataCell`;
whether a mutable borrow of the cell is currently active is passed
explicitly to the operations that touch the cell. -/
structure PlainEntry where
  num : Nat
  fname : String
  metadataCell : Option PlainMetadata
deriving DecidableEq

/-- Embeds `RefCell::try_borrow(...).ok()`: the borrow succeeds with the
cell's value unless a mutable borrow is currently active. -/
def tryBorrow {α : Type} (mutBorrowActive : Bool) (v : α) : Option α :=
  if mutBorrowActive then none else some v

/-- Embeds `PlainEntry::metadata` (src/plaintext.rs, lines 37-39):
`self.metadata.try_borrow().ok().map(|m| m.clone()).flatten()` (clone of
a value is the value itself in the embedding). -/
def PlainEntry.metadata (e : PlainEntry) (mutBorrowActive : Bool) :
    Option PlainMetadata :=
  (Option.map (fun m => m) (tryBorrow mutBorrowActive e.metadataCell)).join

/-- Containers reachable by any sequence of the implemented constructors
and operations: `from_parts`, `add_entry`, (successful) `remove_entry`,
and `merge`. -/
inductive Reachable : Playlist P E → Prop where
  | from_parts (info : P) (entries : List E) :
      Reachable (Playlist.from_parts info entries)
  | add_entry {p : Playlist P E} (e : E) :
      Reachable p → Reachable (p.add_entry e)
  | remove_entry {p : Playlist P E} {e : E} {q : Playlist P E} (i : Nat) :
      Reachable p → p.remove_entry i = Except.ok (e, q) → Reachable q
  | merge {p q : Playlist P E} :
      Reachable p → Reachable q → Reachable (p.merge q)

/-- C10: for every input string, `uri_is_file` returns `false`. -/
theorem uri_is_file_always_false (s : String) : uri_is_file s = false :=
  rfl

/-- C1: `X.merge(Y)` produces a container whose entry sequence is exactly
X's entries followed by Y's entries (hence no deduplication and original
relative order), whose count is the sum of the two counts, and whose
playlist info equals X's info. -/
theorem merge_spec (x y : Playlist P E) :
    (x.merge y).entries = x.entries ++ y.entries ∧
    (x.merge y).count = x.count + y.count ∧
    (x.merge y).get_metadata = x.get_metadata := by
  refine ⟨rfl, ?_, rfl⟩
  simp [Playlist.merge, Playlist.count]

/-- Erasing one key from the store leaves lookups at other keys
unchanged. -/
theorem storeLookup_erase_ne {i j : Nat} (hij : i ≠ j) :
    ∀ σ : Store P E, storeLookup (storeErase σ j) i = storeLookup σ i
  | [] => rfl
  | (k, p) :: rest => by
    by_cases hk : k = j
    · have hki : ¬ k = i := by omega
      simp only [storeErase, storeLookup, if_pos hk, if_neg hki]
      exact storeLookup_erase_ne hij rest
    · simp only [storeErase, storeLookup, if_neg hk]
      by_cases hki : k = i
      · simp only [storeLookup, if_pos hki]
      · simp only [storeLookup, if_neg hki]
        exact storeLookup_erase_ne hij rest

/-- After erasing a key, looking it up yields nothing. -/
theorem storeLookup_erase_self (j : Nat) :
    ∀ σ : Store P E, storeLookup (storeErase σ j) j = none
  | [] => rfl
  | (k, p) :: rest => by
    by_cases hk : k = j
    · simp only [storeErase, if_pos hk]
      exact storeLookup_erase_self j rest
    · simp only [storeErase, if_neg hk, storeLookup, if_neg hk]
      exact storeLookup_erase_self j rest

/-- C6 counterexample: with X = ([1], info 10) alive under key 0 and
Y = ([2], info 20) alive under key 1, after `X.merge(Y)` the store no
longer binds Y's key: the argument was moved into the call (`other:
Self`, src/lib.rs line 134) and dropped when the body returned, so Y is
not left intact — it no longer exists. -/
theorem merge_consumes_argument :
    mergeCall [(0, Playlist.mk [1] (10 : Nat)), (1, Playlist.mk [2] 20)] 0 1 2 =
      some [(2, Playlist.mk [1, 2] 10), (0, Playlist.mk [1] 10)] ∧
    storeLookup [(2, Playlist.mk [1, 2] 10), (0, Playlist.mk [1] 10)] 1 = none :=
  ⟨rfl, rfl⟩

/-- C6 (amended): `merge` is non-destructive for the receiver and never
mutates the argument, but consumes it: after `X.merge(Y)` the receiver's
key still holds exactly X (entries and info unchanged), the argument's
key is no longer bound (Y was moved into the call and dropped), and the
fresh result is built from the unmutated contents of both inputs. -/
theorem merge_receiver_intact_argument_consumed (σ : Store P E)
    (x y r : Nat) (px py : Playlist P E)
    (hx : storeLookup σ x = some px) (hy : storeLookup σ y = some py)
    (hxy : x ≠ y) (hrx : r ≠ x) (hry : r ≠ y) :
    mergeCall σ x y r = some ((r, px.merge py) :: storeErase σ y) ∧
    storeLookup ((r, px.merge py) :: storeErase σ y) x = some px ∧
    storeLookup ((r, px.merge py) :: storeErase σ y) y = none ∧
    storeLookup ((r, px.merge py) :: storeErase σ y) r =
      some (Playlist.mk (px.entries ++ py.entries) px.info) := by
  refine ⟨?_, ?_, ?_, ?_⟩
  · rw [mergeCall, hx, hy]
  · rw [storeLookup, if_neg hrx, storeLookup_erase_ne hxy σ, hx]
  · rw [storeLookup, if_neg hry]
    exact storeLookup_erase_self y σ
  · rw [storeLookup, if_pos rfl]
    rfl

/-- C6 witness: the amended theorem applied to the concrete
two-container store of the counterexample. -/
theorem merge_receiver_intact_argument_consumed_witness :
    storeLookup [(0, Playlist.mk [1] (10 : Nat)), (1, Playlist.mk [2] 20)] 0 =
      some (Playlist.mk [1] 10) ∧
    storeLookup [(0, Playlist.mk [1] (10 : Nat)), (1, Playlist.mk [2] 20)] 1 =
      some (Playlist.mk [2] 20) ∧
    (0 : Nat) ≠ 1 ∧ (2 : Nat) ≠ 0 ∧ (2 : Nat) ≠ 1 ∧
    storeLookup ((2, (Playlist.mk [1] (10 : Nat)).merge (Playlist.mk [2] 20)) ::
        storeErase [(0, Playlist.mk [1] (10 : Nat)), (1, Playlist.mk [2] 20)] 1) 0 =
      some (Playlist.mk [1] 10) := by
  refine ⟨rfl, rfl, by decide, by decide, by decide, ?_⟩
  exact (merge_receiver_intact_argument_consumed
    [(0, Playlist.mk [1] (10 : Nat)), (1, Playlist.mk [2] 20)] 0 1 2
    (Playlist.mk [1] 10) (Playlist.mk [2] 20) rfl rfl
    (by decide) (by decide) (by decide)).2.1

/-- C7: `add_entry` (a total function, hence it never fails) appends the
entry at the end: the count grows by one, the last position holds the new
entry, and every previously present entry is unchanged at its index. -/
theorem add_entry_spec (p : Playlist P E) (e : E) :
    (p.add_entry e).count = p.count + 1 ∧
    (p.add_entry e).entries[p.count]? = some e ∧
    ∀ j, j < p.count → (p.add_entry e).entries[j]? = p.entries[j]? := by
  refine ⟨by simp [Playlist.add_entry, Playlist.count], ?_, ?_⟩
  · show (p.entries ++ [e])[p.entries.length]? = some e
    rw [List.getElem?_append_right (Nat.le_refl _)]
    simp
  · intro j hj
    exact List.getElem?_append_left hj

/-- C7 witness: appending 20 to a one-entry playlist leaves the entry at
index 0 unchanged. -/
theorem add_entry_spec_witness :
    0 < (Playlist.from_parts (0 : Nat) [10]).count ∧
    ((Playlist.from_parts (0 : Nat) [10]).add_entry 20).entries[0]? =
      (Playlist.from_parts (0 : Nat) [10]).entries[0]? :=
  ⟨by decide, (add_entry_spec (Playlist.from_parts (0 : Nat) [10]) 20).2.2 0 (by decide)⟩

/-- C8: for every container reachable by `from_parts`, `add_entry`,
`remove_entry` and `merge`, `count` equals the length of the entry
sequence. -/
theorem count_eq_length_of_reachable (p : Playlist P E) (_h : Reachable p) :
    p.count = p.entries.length :=
  rfl

/-- C8 witness: a concrete reachable container. -/
theorem count_eq_length_of_reachable_witness :
    Reachable (Playlist.from_parts (0 : Nat) [1, 2, 3]) ∧
    (Playlist.from_parts (0 : Nat) [1, 2, 3]).count =
      (Playlist.from_parts (0 : Nat) [1, 2, 3]).entries.length :=
  ⟨Reachable.from_parts 0 [1, 2, 3],
   count_eq_length_of_reachable _ (Reachable.from_parts 0 [1, 2, 3])⟩

/-- C9: `PlainEntry::metadata` is total (a Lean function), returns `none`
when the cell is mutably borrowed, returns `none` when no metadata is
stored, and otherwise returns the stored metadata value (a clone, i.e.
the value itself). -/
theorem plainEntry_metadata_spec (e : PlainEntry) (b : Bool) :
    (b = true → e.metadata b = none) ∧
    (e.metadataCell = none → e.metadata b = none) ∧
    (b = false → e.metadata b = e.metadataCell) :=
  ⟨fun h => by simp [PlainEntry.metadata, tryBorrow, h],
   fun h => by cases b <;> simp [PlainEntry.metadata, tryBorrow, h],
   fun h => by simp [PlainEntry.metadata, tryBorrow, h]⟩

/-- C9 witness: a mutably borrowed cell yields `none`. -/
theorem plainEntry_metadata_spec_witness :
    true = true ∧ (PlainEntry.mk 0 "a" none).metadata true = none :=
  ⟨rfl, (plainEntry_metadata_spec (PlainEntry.mk 0 "a" none) true).1 rfl⟩

/-- C5: evaluating the code at the spec's own example: a plain entry with
reference "music/song.mp3" whose metadata carries no explicit title gets
title `""` from `PlainMetadata::title`, not the required fallback
"song.mp3" (the final path segment of the reference). -/
theorem plainMetadata_title_is_empty_not_fallback :
    (PlainEntry.mk 0 "music/song.mp3" (some (PlainMetadata.mk 0))).metadata false
        = some (PlainMetadata.mk 0) ∧
    (PlainMetadata.mk 0).title = "" ∧
    finalPathSegment "music/song.mp3" = "song.mp3" ∧
    (PlainMetadata.mk 0).title ≠ finalPathSegment "music/song.mp3" := by
  refine ⟨rfl, rfl, by decide, by decide⟩

/-- C3: `remove_entry i` fails with `indexError` exactly when `i` is out
of bounds; in bounds it succeeds, returning the entry at `i` and a
container in which the entries before `i` are unchanged and the entries
from `i` on are the old entries shifted one position to the left. -/
theorem remove_entry_spec (p : Playlist P E) (i : Nat) :
    (p.count ≤ i → p.remove_entry i = Except.error AbsError.indexError) ∧
    (i < p.count → ∃ r, p.remove_entry i = Except.ok r) ∧
    (∀ e q, p.remove_entry i = Except.ok (e, q) →
      p.entries[i]? = some e ∧
      q.count + 1 = p.count ∧
      q.info = p.info ∧
      q.entries.take i = p.entries.take i ∧
      q.entries.drop i = p.entries.drop (i + 1)) := by
  refine ⟨?_, ?_, ?_⟩
  · intro h
    have h' : ¬ i < p.entries.length := Nat.not_lt.mpr h
    simp [Playlist.remove_entry, h']
  · intro hi
    have hi' : i < p.entries.length := hi
    exact ⟨(p.entries.get ⟨i, hi'⟩,
      Playlist.mk (p.entries.take i ++ p.entries.drop (i + 1)) p.info),
      by simp [Playlist.remove_entry, hi']⟩
  · intro e q h
    rw [Playlist.remove_entry] at h
    split at h
    case isTrue hi =>
      obtain ⟨he, hq⟩ := Prod.mk.injEq .. ▸ Except.ok.inj h
      subst he
      subst hq
      have hmin : i ≤ p.entries.length := Nat.le_of_lt hi
      refine ⟨by simp, ?_, rfl, ?_, ?_⟩
      · show (p.entries.take i ++ p.entries.drop (i + 1)).length + 1 = p.entries.length
        simp only [List.length_append, List.length_take, List.length_drop]
        omega
      · show (p.entries.take i ++ p.entries.drop (i + 1)).take i = p.entries.take i
        rw [List.take_append_of_le_length (by simp [List.length_take]; omega)]
        simp [List.take_take]
      · show (p.entries.take i ++ p.entries.drop (i + 1)).drop i = p.entries.drop (i + 1)
        rw [List.drop_append_of_le_length (by simp [List.length_take]; omega)]
        have hnil : (p.entries.take i).drop i = [] :=
          List.drop_eq_nil_of_le (by simp [List.length_take])
        simp [hnil]
    case isFalse hi =>
      exact absurd h (by simp)

/-- C3 witness: removing at index 1 of a three-entry playlist and at the
out-of-bounds index 3. -/
theorem remove_entry_spec_witness :
    (Playlist.from_parts (0 : Nat) [5, 6, 7]).count ≤ 3 ∧
    (Playlist.from_parts (0 : Nat) [5, 6, 7]).remove_entry 3 =
      Except.error AbsError.indexError ∧
    (Playlist.from_parts (0 : Nat) [5, 6, 7]).remove_entry 1 =
      Except.ok (6, Playlist.mk [5, 7] 0) ∧
    (Playlist.from_parts (0 : Nat) [5, 6, 7]).entries[1]? = some 6 := by
  refine ⟨by decide, (remove_entry_spec (Playlist.from_parts (0 : Nat) [5, 6, 7]) 3).1 (by decide), rfl, ?_⟩
  exact ((remove_entry_spec (Playlist.from_parts (0 : Nat) [5, 6, 7]) 1).2.2 6 (Playlist.mk [5, 7] 0) rfl).1

/-- C4: `add_entry_at e i` fails with `indexError` exactly when
`i > count`; when `i ≤ count` it succeeds, and the resulting container
holds `e` at position `i` with the earlier entries unchanged and the
later entries shifted one position to the right; at `i = count` the
result is exactly the old sequence with `e` appended. -/
theorem add_entry_at_spec (p : Playlist P E) (e : E) (i : Nat) :
    (p.count < i → p.add_entry_at e i = Except.error AbsError.indexError) ∧
    (i ≤ p.count → ∃ q, p.add_entry_at e i = Except.ok q) ∧
    (∀ q, p.add_entry_at e i = Except.ok q →
      q.count = p.count + 1 ∧
      q.info = p.info ∧
      q.entries.take i = p.entries.take i ∧
      q.entries[i]? = some e ∧
      q.entries.drop (i + 1) = p.entries.drop i) ∧
    (i = p.count →
      p.add_entry_at e i = Except.ok (Playlist.mk (p.entries ++ [e]) p.info)) := by
  refine ⟨?_, ?_, ?_, ?_⟩
  · intro h
    have h' : p.entries.length < i := h
    simp [Playlist.add_entry_at, h']
  · intro h
    have h' : ¬ p.entries.length < i := Nat.not_lt.mpr h
    exact ⟨Playlist.mk (p.entries.take i ++ e :: p.entries.drop i) p.info,
      by simp [Playlist.add_entry_at, h']⟩
  · intro q h
    rw [Playlist.add_entry_at] at h
    split at h
    case isTrue hgt =>
      exact absurd h (by simp)
    case isFalse hle =>
      have hle' : i ≤ p.entries.length := Nat.not_lt.mp hle
      obtain hq := Except.ok.inj h
      subst hq
      have htklen : (p.entries.take i).length = i := by
        simp [List.length_take]
        omega
      refine ⟨?_, rfl, ?_, ?_, ?_⟩
      · show (p.entries.take i ++ e :: p.entries.drop i).length = p.entries.length + 1
        simp only [List.length_append, List.length_cons, List.length_take,
          List.length_drop]
        omega
      · show (p.entries.take i ++ e :: p.entries.drop i).take i = p.entries.take i
        rw [List.take_append_of_le_length (by omega)]
        simp [List.take_take]
      · show (p.entries.take i ++ e :: p.entries.drop i)[i]? = some e
        rw [List.getElem?_append_right (by omega)]
        simp [htklen]
      · show (p.entries.take i ++ e :: p.entries.drop i).drop (i + 1) =
          p.entries.drop i
        rw [List.drop_append_eq_append_drop]
        have hnil : (p.entries.take i).drop (i + 1) = [] :=
          List.drop_eq_nil_of_le (by omega)
        simp [hnil, htklen]
  · intro h
    have h1 : i = p.entries.length := h
    subst h1
    have h' : ¬ p.entries.length < p.entries.length := Nat.lt_irrefl _
    simp only [Playlist.add_entry_at, h', if_false]
    rw [List.take_length, List.drop_length]

/-- C4 witness: inserting at `count` appends, and inserting past
`count` fails. -/
theorem add_entry_at_spec_witness :
    (2 = (Playlist.from_parts (0 : Nat) [5, 6]).count) ∧
    (Playlist.from_parts (0 : Nat) [5, 6]).add_entry_at 9 2 =
      Except.ok (Playlist.mk ([5, 6] ++ [9]) 0) ∧
    ((Playlist.from_parts (0 : Nat) [5, 6]).count < 3) ∧
    (Playlist.from_parts (0 : Nat) [5, 6]).add_entry_at 9 3 =
      Except.error AbsError.indexError :=
  ⟨rfl, (add_entry_at_spec (Playlist.from_parts (0 : Nat) [5, 6]) 9 2).2.2.2 rfl,
   by decide, (add_entry_at_spec (Playlist.from_parts (0 : Nat) [5, 6]) 9 3).1 (by decide)⟩

/-- The dedup scan only ever drops elements, so its output is a sublist
of its input (relative order of survivors is preserved). -/
theorem dedupKeep_sublist (eq : E → E → Bool) :
    ∀ (l kept : List E), List.Sublist (dedupKeep eq kept l) l
  | [], _ => List.Sublist.slnil
  | x :: xs, kept => by
    rw [dedupKeep]
    split
    · exact List.Sublist.cons x (dedupKeep_sublist eq xs kept)
    · exact List.Sublist.cons₂ x (dedupKeep_sublist eq xs (kept ++ [x]))

/-- When the kept accumulator and the processed-prefix accumulator agree
on which elements they match (which transitivity of `eq` maintains), the
dedup scan computes the first-occurrence filter. -/
theorem dedupKeep_eq_firstOccAux (eq : E → E → Bool)
    (htrans : ∀ a b c, eq a b = true → eq b c = true → eq a c = true) :
    ∀ (l kept prev : List E),
      (∀ z, kept.any (fun s => eq s z) = prev.any (fun s => eq s z)) →
      dedupKeep eq kept l = firstOccAux eq prev l
  | [], _, _, _ => rfl
  | x :: xs, kept, prev, hagree => by
    rw [dedupKeep, firstOccAux, hagree x]
    split
    case isTrue hx =>
      apply dedupKeep_eq_firstOccAux eq htrans xs kept (prev ++ [x])
      intro z
      rw [hagree z, List.any_append]
      cases hxz : eq x z with
      | false => simp [hxz]
      | true =>
        have hz : prev.any (fun s => eq s z) = true := by
          rw [List.any_eq_true] at hx ⊢
          obtain ⟨s, hs, hsx⟩ := hx
          exact ⟨s, hs, htrans s x z hsx hxz⟩
        simp [hz, hxz]
    case isFalse hx =>
      congr 1
      apply dedupKeep_eq_firstOccAux eq htrans xs (kept ++ [x]) (prev ++ [x])
      intro z
      simp [List.any_append, hagree z]

/-- C2: provided the capability-defined equality is transitive (part of
the `PartialEq` contract), `dedup_entries` keeps exactly the entries not
equal to any earlier entry of the original sequence (so the first
occurrence of each equality class survives), preserves the relative
order of the survivors, returns the number of entries removed, and
leaves the playlist info unchanged. -/
theorem dedup_entries_spec (eq : E → E → Bool)
    (htrans : ∀ a b c, eq a b = true → eq b c = true → eq a c = true)
    (p : Playlist P E) :
    (p.dedup_entries eq).1.entries = firstOccurrences eq p.entries ∧
    List.Sublist (p.dedup_entries eq).1.entries p.entries ∧
    (p.dedup_entries eq).2 + (p.dedup_entries eq).1.entries.length =
      p.entries.length ∧
    (p.dedup_entries eq).1.info = p.info := by
  refine ⟨?_, ?_, ?_, rfl⟩
  · exact dedupKeep_eq_firstOccAux eq htrans p.entries [] [] (fun z => rfl)
  · exact dedupKeep_sublist eq p.entries []
  · have hlen := (dedupKeep_sublist eq p.entries []).length_le
    show p.entries.length - (dedupKeep eq [] p.entries).length +
      (dedupKeep eq [] p.entries).length = p.entries.length
    omega

/-- C2 witness: the spec's own example `[A, B, A', C]` as `[1, 2, 1, 3]`
under numeric equality: dedup keeps `[1, 2, 3]` and reports one entry
removed. -/
theorem dedup_entries_spec_witness :
    (∀ a b c : Nat, (a == b) = true → (b == c) = true → (a == c) = true) ∧
    ((Playlist.from_parts (0 : Nat) [1, 2, 1, 3]).dedup_entries
        (fun a b => a == b)).1.entries =
      firstOccurrences (fun a b => a == b) [1, 2, 1, 3] ∧
    ((Playlist.from_parts (0 : Nat) [1, 2, 1, 3]).dedup_entries
        (fun a b => a == b)).1.entries = [1, 2, 3] ∧
    ((Playlist.from_parts (0 : Nat) [1, 2, 1, 3]).dedup_entries
        (fun a b => a == b)).2 = 1 := by
  have ht : ∀ a b c : Nat, (a == b) = true → (b == c) = true → (a == c) = true := by
    intro a b c h1 h2
    simp_all
  exact ⟨ht,
    (dedup_entries_spec (fun a b => a == b) ht
      (Playlist.from_parts (0 : Nat) [1, 2, 1, 3])).1,
    by decide, by decide⟩
